import Mathlib

set_option maxRecDepth 100000

namespace DupFiles

/-!
Shallow embedding of the duplicate-file finder (`src/main.py`).

File contents are byte lists (`List Nat`, each byte `< 256`); file paths are
`String`s. The filesystem visible to the hashing phase is a partial map
`String → Option (List Nat)` (`none` models a file that cannot be opened or
read, i.e. `open`/`read` raising `OSError`). The directory tree walked by
`os.walk` is modelled by `FSTree`.
-/

/-! ## MD5 (models `hashlib.md5`)

The incremental accumulator of `hashlib` satisfies: the final `hexdigest()`
is the MD5 digest of the concatenation of all bytes passed to `update`.
`md5hex` below is the full MD5 algorithm (RFC 1321) over a byte list, with
32-bit words represented as `Nat` reduced `% 2^32`, and the digest rendered
as 32 lowercase hexadecimal characters exactly as `hexdigest()` renders it.
-/

/-- Truncation to a 32-bit word. -/
def w32 (x : Nat) : Nat := x % 4294967296

/-- Left-rotation of a 32-bit word. -/
def rotl32 (x c : Nat) : Nat := w32 (x <<< c) ||| (w32 x >>> (32 - c))

/-- The 64 round constants `K[i] = floor(2^32 * |sin(i+1)|)` of RFC 1321. -/
def md5K : List Nat :=
  [0xd76aa478, 0xe8c7b756, 0x242070db, 0xc1bdceee,
   0xf57c0faf, 0x4787c62a, 0xa8304613, 0xfd469501,
   0x698098d8, 0x8b44f7af, 0xffff5bb1, 0x895cd7be,
   0x6b901122, 0xfd987193, 0xa679438e, 0x49b40821,
   0xf61e2562, 0xc040b340, 0x265e5a51, 0xe9b6c7aa,
   0xd62f105d, 0x02441453, 0xd8a1e681, 0xe7d3fbc8,
   0x21e1cde6, 0xc33707d6, 0xf4d50d87, 0x455a14ed,
   0xa9e3e905, 0xfcefa3f8, 0x676f02d9, 0x8d2a4c8a,
   0xfffa3942, 0x8771f681, 0x6d9d6122, 0xfde5380c,
   0xa4beea44, 0x4bdecfa9, 0xf6bb4b60, 0xbebfbc70,
   0x289b7ec6, 0xeaa127fa, 0xd4ef3085, 0x04881d05,
   0xd9d4d039, 0xe6db99e5, 0x1fa27cf8, 0xc4ac5665,
   0xf4292244, 0x432aff97, 0xab9423a7, 0xfc93a039,
   0x655b59c3, 0x8f0ccc92, 0xffeff47d, 0x85845dd1,
   0x6fa87e4f, 0xfe2ce6e0, 0xa3014314, 0x4e0811a1,
   0xf7537e82, 0xbd3af235, 0x2ad7d2bb, 0xeb86d391]

/-- The 64 per-round left-rotation amounts of RFC 1321. -/
def md5S : List Nat :=
  [7, 12, 17, 22, 7, 12, 17, 22, 7, 12, 17, 22, 7, 12, 17, 22,
   5,  9, 14, 20, 5,  9, 14, 20, 5,  9, 14, 20, 5,  9, 14, 20,
   4, 11, 16, 23, 4, 11, 16, 23, 4, 11, 16, 23, 4, 11, 16, 23,
   6, 10, 15, 21, 6, 10, 15, 21, 6, 10, 15, 21, 6, 10, 15, 21]

/-- One MD5 round: `m` is the current block as sixteen 32-bit words,
`st = (A, B, C, D)` the running state, `i` the round index `0 ≤ i < 64`. -/
def md5Round (m : List Nat) (st : Nat × Nat × Nat × Nat) (i : Nat) : Nat × Nat × Nat × Nat :=
  let a := st.1
  let b := st.2.1
  let c := st.2.2.1
  let d := st.2.2.2
  let f :=
    if i < 16 then (b &&& c) ||| ((b ^^^ 0xffffffff) &&& d)
    else if i < 32 then (d &&& b) ||| ((d ^^^ 0xffffffff) &&& c)
    else if i < 48 then b ^^^ c ^^^ d
    else c ^^^ (b ||| (d ^^^ 0xffffffff))
  let g :=
    if i < 16 then i
    else if i < 32 then (5 * i + 1) % 16
    else if i < 48 then (3 * i + 5) % 16
    else (7 * i) % 16
  let f := w32 (f + a + md5K.getD i 0 + m.getD g 0)
  (d, w32 (b + rotl32 f (md5S.getD i 0)), b, c)

/-- Decode a 64-byte block into sixteen little-endian 32-bit words. -/
def md5Words (block : List Nat) : List Nat :=
  (List.range 16).map fun j =>
    block.getD (4 * j) 0 % 256
      + block.getD (4 * j + 1) 0 % 256 * 256
      + block.getD (4 * j + 2) 0 % 256 * 65536
      + block.getD (4 * j + 3) 0 % 256 * 16777216

/-- Process one 64-byte block: run the 64 rounds and add the result to the
incoming state, word-wise `% 2^32`. -/
def md5ProcessBlock (st : Nat × Nat × Nat × Nat) (block : List Nat) : Nat × Nat × Nat × Nat :=
  let m := md5Words block
  let r := (List.range 64).foldl (md5Round m) st
  (w32 (st.1 + r.1), w32 (st.2.1 + r.2.1), w32 (st.2.2.1 + r.2.2.1), w32 (st.2.2.2 + r.2.2.2))

/-- The `n` little-endian bytes of `x` (so `x` is taken `% 2^(8n)`). -/
def toLEBytes : Nat → Nat → List Nat
  | 0, _ => []
  | n + 1, x => x % 256 :: toLEBytes n (x / 256)

/-- MD5 padding: append `0x80`, zero bytes until the length is 56 mod 64,
then the original bit length as eight little-endian bytes. -/
def md5Pad (msg : List Nat) : List Nat :=
  msg ++ 0x80 :: List.replicate ((56 + 64 - (msg.length + 1) % 64) % 64) 0
    ++ toLEBytes 8 (msg.length * 8)

/-- Split a byte list into successive 64-byte blocks. `fuel` only bounds the
number of iterations so that the recursion is structural (and hence reduces
inside the kernel); each iteration consumes at least one byte, so a fuel of
`l.length` is always enough. -/
def blocks64Aux : Nat → List Nat → List (List Nat)
  | 0, _ => []
  | fuel + 1, l => if l.isEmpty then [] else l.take 64 :: blocks64Aux fuel (l.drop 64)

/-- Split a byte list into successive 64-byte blocks. -/
def blocks64 (l : List Nat) : List (List Nat) := blocks64Aux l.length l

/-- The 16 digest bytes of a message: fold all padded blocks from the
standard initial state and serialise the final state little-endian. -/
def md5Bytes (msg : List Nat) : List Nat :=
  let st := (blocks64 (md5Pad msg)).foldl md5ProcessBlock
    (0x67452301, 0xefcdab89, 0x98badcfe, 0x10325476)
  toLEBytes 4 st.1 ++ toLEBytes 4 st.2.1 ++ toLEBytes 4 st.2.2.1 ++ toLEBytes 4 st.2.2.2

/-- One lowercase hexadecimal digit. -/
def hexDigit : Nat → Char
  | 0 => '0' | 1 => '1' | 2 => '2' | 3 => '3'
  | 4 => '4' | 5 => '5' | 6 => '6' | 7 => '7'
  | 8 => '8' | 9 => '9' | 10 => 'a' | 11 => 'b'
  | 12 => 'c' | 13 => 'd' | 14 => 'e' | 15 => 'f'
  | _ + 16 => '0'

/-- Render bytes as lowercase hexadecimal, two digits per byte, as Python's
`hexdigest` does. -/
def bytesToHex (bs : List Nat) : List Char :=
  bs.flatMap fun b => [hexDigit (b / 16 % 16), hexDigit (b % 16)]

/-- The value of `hashlib.md5(bytes(msg)).hexdigest()`. -/
def md5hex (msg : List Nat) : String :=
  String.mk (bytesToHex (md5Bytes msg))

/-! ## `get_file_hash` (src/main.py lines 41-74)

`get_file_hash` opens the file, repeatedly reads `chunk_size` bytes and feeds
them to the accumulator while the read returns a non-empty chunk, then
returns the accumulator's `hexdigest()`. Since `hexdigest` digests the
concatenation of all fed chunks, the loop amounts to computing the
concatenation of the successive chunks. `f.read(n)` on a file whose unread
remainder is `rest` returns `rest.take n` (in particular `f.read(0) = b''`,
so with `chunk_size = 0` the loop body never runs). -/

/-- The bytes fed to the accumulator by the `while chunk:` read loop of
`get_file_hash`, starting from an unread remainder `l`. `fuel` only bounds
the number of loop iterations so that the recursion is structural: every
iteration that feeds a chunk consumes at least one byte (a non-empty chunk),
so a fuel of `l.length` is always enough. -/
def feedChunksAux (chunk_size : Nat) : Nat → List Nat → List Nat
  | 0, _ => []
  | fuel + 1, l =>
    let chunk := l.take chunk_size
    if chunk.isEmpty then [] else chunk ++ feedChunksAux chunk_size fuel (l.drop chunk_size)

/-- The bytes fed to the md5 accumulator by `get_file_hash`'s read loop on a
file with content `content`. -/
def feedChunks (chunk_size : Nat) (content : List Nat) : List Nat :=
  feedChunksAux chunk_size content.length content

/-- `get_file_hash(file_path, chunk_size)`: `fs` is the readable filesystem;
`fs file_path = none` models `open`/`read` raising an `OSError`, which the
function does not catch — the error (carrying the failing path) propagates to
the caller. -/
def get_file_hash (fs : String → Option (List Nat)) (file_path : String) (chunk_size : Nat) :
    Except String String :=
  match fs file_path with
  | none => Except.error file_path
  | some content => Except.ok (md5hex (feedChunks chunk_size content))

/-! ## `group_files_by_hash` (src/main.py lines 12-38)

The Python dict is modelled as an association list in key-insertion order,
which is exactly the iteration (and `json.dumps`) order of a Python dict. -/

/-- First value stored under key `k`, i.e. `d[k]` on a Python dict whose
items in insertion order are `d`. -/
def lookupKey (d : List (String × List String)) (k : String) : Option (List String) :=
  match d with
  | [] => none
  | (k', vs) :: rest => if k' = k then some vs else lookupKey rest k

/-- `d[k].append(v)` on a Python dict: the first entry with key `k` gets `v`
appended to its value list, all positions unchanged. -/
def updateKey (d : List (String × List String)) (k : String) (v : String) :
    List (String × List String) :=
  match d with
  | [] => []
  | (k', vs) :: rest =>
    if k' = k then (k', vs ++ [v]) :: rest else (k', vs) :: updateKey rest k v

/-- The body of `group_files_by_hash`'s loop: `if file_hash not in
files_by_hash: files_by_hash[file_hash] = [file_path] else:
files_by_hash[file_hash].append(file_path)`. A fresh key is inserted at the
end (Python dicts preserve insertion order). -/
def addPair (d : List (String × List String)) (k : String) (v : String) :
    List (String × List String) :=
  if (d.map Prod.fst).contains k then updateKey d k v else d ++ [(k, [v])]

/-- `group_files_by_hash(files)`: fold the (hash, path) pairs into the dict
in order. -/
def group_files_by_hash (files : List (String × String)) : List (String × List String) :=
  files.foldl (fun d p => addPair d p.1 p.2) []

/-! ## `get_subdirs_files` (src/main.py lines 77-142)

The directory tree that `os.walk` traverses is modelled by `FSTree`; `osWalk
path t` is the list of `(root, files)` pairs that `os.walk` yields for a tree
`t` mounted at `path` (top-down, the default; the `dirs` component is unused
by the source, whose subdirectory-collecting block is commented out). -/

/-- A directory: its name, the names of the plain files directly inside it,
and its subdirectories. -/
inductive FSTree where
  | dir (name : String) (files : List String) (subdirs : List FSTree)

/-- The name of a directory. -/
def FSTree.name : FSTree → String
  | .dir n _ _ => n

/-- `os.path.isabs` for POSIX paths. -/
def isAbs (p : String) : Bool :=
  match p.data with
  | [] => false
  | c :: _ => c = '/'

/-- `os.path.join(root, file)` for POSIX paths, for the cases arising here
(the second component is a bare name or an absolute path): an absolute second
component replaces the first; otherwise the two are joined with `'/'`,
inserted only when `root` does not already end in it. -/
def pathJoin (root file : String) : String :=
  if isAbs file then file
  else if root = "" then file
  else if root.data.getLast? = some '/' then root ++ file
  else root ++ "/" ++ file

mutual

/-- The `(root, files)` pairs yielded by `os.walk(path)` over the tree `t`
mounted at `path`, in top-down order. -/
def osWalk (path : String) : FSTree → List (String × List String)
  | FSTree.dir _ files subdirs => (path, files) :: osWalkList path subdirs

/-- The walk entries contributed by a list of subdirectories of `path`. -/
def osWalkList (path : String) : List FSTree → List (String × List String)
  | [] => []
  | t :: ts => osWalk (pathJoin path t.name) t ++ osWalkList path ts

end

/-- Python's `needle in haystack` on strings, on explicit char lists:
does the haystack start with the needle? -/
def startsWithList (pat s : List Char) : Bool :=
  match pat, s with
  | [], _ => true
  | _ :: _, [] => false
  | p :: ps, c :: cs => p = c && startsWithList ps cs

/-- Does `s` contain `pat` as a contiguous sublist? -/
def containsList (pat s : List Char) : Bool :=
  match s with
  | [] => pat.isEmpty
  | _ :: cs => startsWithList pat s || containsList pat cs

/-- Python's substring test `needle in hay`. -/
def strIn (needle hay : String) : Bool := containsList needle.data hay.data

/-- Python's `str.startswith('.')`. -/
def startsDot (s : String) : Bool :=
  match s.data with
  | [] => false
  | c :: _ => c = '.'

/-- The `IGNORE_LIST` tuple of `get_subdirs_files`. -/
def IGNORE_LIST : List String := ["node_modules", "venv", "__pycache__"]

/-- The inner `for file in files:` loop of `get_subdirs_files`, for one walk
entry `(root, files)` reached from the argument `directory`: returns the
joined paths it adds, in order. The `break` (non-recursive mode outside the
root itself), the hidden-file `continue` and the ignore-list `continue` are
modelled exactly as written. -/
def collectFiles (recursive includeHidden : Bool) (directory root : String) :
    List String → List String
  | [] => []
  | file :: rest =>
    if !recursive && directory != root then []
    else if !includeHidden && startsDot file then
      collectFiles recursive includeHidden directory root rest
    else if IGNORE_LIST.any (fun ig => strIn ig root) then
      collectFiles recursive includeHidden directory root rest
    else
      pathJoin root file :: collectFiles recursive includeHidden directory root rest

/-- `set.add` on the list model of a Python set: adding a present element
changes nothing. -/
def setAdd (s : List String) (x : String) : List String :=
  if x ∈ s then s else s ++ [x]

/-- `get_subdirs_files(recursive, includeHidden, directories)`: each
directory argument comes with the tree `os.walk` finds at it. The
subdirectory set stays empty (that block of the source is commented out);
the file set accumulates the collected paths of every walk entry of every
directory argument. -/
def get_subdirs_files (recursive includeHidden : Bool)
    (directories : List (String × FSTree)) : List String × List String :=
  let file_paths := directories.foldl
    (fun acc dt =>
      (osWalk dt.1 dt.2).foldl
        (fun acc2 e => (collectFiles recursive includeHidden dt.1 e.1 e.2).foldl setAdd acc2)
        acc)
    []
  ([], file_paths)

/-- The file-path component of `get_subdirs_files`. -/
def scanFiles (recursive includeHidden : Bool) (dirs : List (String × FSTree)) : List String :=
  (get_subdirs_files recursive includeHidden dirs).2

/-! ## `main` (src/main.py lines 186-233) -/

/-- Python's string comparison (lexicographic by code point), as a Boolean
`≤` on char lists. -/
def lexLe : List Char → List Char → Bool
  | [], _ => true
  | _ :: _, [] => false
  | c :: cs, d :: ds =>
    if c < d then true
    else if d < c then false
    else lexLe cs ds

/-- Python's `<=` on strings. -/
def strLe (a b : String) : Bool := lexLe a.data b.data

/-- Python's `<=` on strings as a relation, the sorting order of `sorted`. -/
def pathLe (a b : String) : Prop := strLe a b = true

instance : DecidableRel pathLe := fun a b => by
  unfold pathLe; infer_instance

/-- `sorted(list(file_paths))`: Python's `sorted` returns the unique
lexicographically non-decreasing rearrangement of its input (for strings,
equal elements are identical, so stability does not matter). -/
def sortPaths (l : List String) : List String :=
  l.insertionSort pathLe

/-- The numbers and tables `main` derives and prints after hashing: total
file count, unique count, duplicate count, the full grouping table, and the
final duplicate report. -/
structure RunReport where
  total : Nat
  unique : Nat
  duplicates : Nat
  table : List (String × List String)
  report : List (String × List String)
deriving DecidableEq

/-- The tail of `main` after all hashes are computed: `unique_len =
len(files_by_hash)`, `duplicate_len = len(file_paths) - unique_len`, and the
report keeps the groups with more than one path. -/
def buildReport (file_paths : List String) (pairs : List (String × String)) : RunReport :=
  let files_by_hash := group_files_by_hash pairs
  let unique_len := files_by_hash.length
  { total := file_paths.length
    unique := unique_len
    duplicates := file_paths.length - unique_len
    table := files_by_hash
    report := files_by_hash.filter fun g => 1 < g.2.length }

/-- The generator `((get_file_hash(p), p) for p in file_paths)` as consumed
by `group_files_by_hash`: hashes are computed in list order and the first
uncaught `OSError` aborts the whole computation. -/
def hashAll (fs : String → Option (List Nat)) (chunk_size : Nat) :
    List String → Except String (List (String × String))
  | [] => Except.ok []
  | p :: rest =>
    match get_file_hash fs p chunk_size with
    | Except.error e => Except.error e
    | Except.ok h =>
      match hashAll fs chunk_size rest with
      | Except.error e => Except.error e
      | Except.ok tl => Except.ok ((h, p) :: tl)

/-- The run of `main` on an already-scanned list of file paths: sort, hash
every file (an uncaught `OSError` aborts the run with no report), group, and
assemble the report. -/
def mainRunPaths (fs : String → Option (List Nat)) (chunk_size : Nat)
    (paths : List String) : Except String RunReport :=
  match hashAll fs chunk_size (sortPaths paths) with
  | Except.error e => Except.error e
  | Except.ok pairs => Except.ok (buildReport (sortPaths paths) pairs)

/-- The whole run of `main` after argument parsing: scan, then sort, hash,
group and report. -/
def mainRun (fs : String → Option (List Nat)) (chunk_size : Nat)
    (recursive includeHidden : Bool) (dirs : List (String × FSTree)) :
    Except String RunReport :=
  mainRunPaths fs chunk_size (scanFiles recursive includeHidden dirs)

/-! ## Validation of the MD5 embedding against the RFC 1321 test vectors -/

/-- `md5("")` agrees with the value RFC 1321 lists. -/
theorem md5hex_rfc_vector_a : md5hex [] = "d41d8cd98f00b204e9800998ecf8427e" := by decide

/-- `md5("abc")` agrees with the value RFC 1321 lists. -/
theorem md5hex_rfc_vector_b :
    md5hex [97, 98, 99] = "900150983cd24fb0d6963f7d28e17f72" := by decide

/-! ## Lemmas: digest format -/

/-- The lowercase hexadecimal alphabet, as characters. -/
def hexAlphabet : List Char := "0123456789abcdef".data

theorem hexDigit_mem_hexAlphabet (n : Nat) : hexDigit n ∈ hexAlphabet :=
  match n with
  | 0 => by decide | 1 => by decide | 2 => by decide | 3 => by decide
  | 4 => by decide | 5 => by decide | 6 => by decide | 7 => by decide
  | 8 => by decide | 9 => by decide | 10 => by decide | 11 => by decide
  | 12 => by decide | 13 => by decide | 14 => by decide | 15 => by decide
  | _ + 16 => by simp only [hexDigit]; decide

theorem length_toLEBytes (n x : Nat) : (toLEBytes n x).length = n := by
  induction n generalizing x with
  | zero => rfl
  | succ n ih => simp [toLEBytes, ih]

theorem length_bytesToHex (bs : List Nat) : (bytesToHex bs).length = 2 * bs.length := by
  induction bs with
  | nil => rfl
  | cons b bs ih =>
    simp only [bytesToHex, List.flatMap_cons] at *
    simp [ih, List.length_cons]
    omega

theorem mem_bytesToHex {bs : List Nat} {c : Char} (h : c ∈ bytesToHex bs) :
    c ∈ hexAlphabet := by
  induction bs with
  | nil => simp [bytesToHex] at h
  | cons b bs ih =>
    simp only [bytesToHex, List.flatMap_cons, List.mem_append, List.mem_cons] at h
    rcases h with (h | h | h) | h
    · exact h ▸ hexDigit_mem_hexAlphabet _
    · exact h ▸ hexDigit_mem_hexAlphabet _
    · simp at h
    · exact ih h

theorem length_md5Bytes (msg : List Nat) : (md5Bytes msg).length = 16 := by
  simp [md5Bytes, List.length_append, length_toLEBytes]

/-- The digest string of any message is exactly 32 characters long. -/
theorem md5hex_length (msg : List Nat) : (md5hex msg).length = 32 := by
  show (bytesToHex (md5Bytes msg)).length = 32
  rw [length_bytesToHex, length_md5Bytes]

/-- Every character of any digest string is a lowercase hexadecimal digit. -/
theorem md5hex_data_mem (msg : List Nat) : ∀ c ∈ (md5hex msg).data, c ∈ hexAlphabet :=
  fun _ h => mem_bytesToHex h

/-! ## Lemmas: the read loop -/

theorem feedChunksAux_eq_self {chunk_size : Nat} (hpos : 0 < chunk_size) :
    ∀ (fuel : Nat) (l : List Nat), l.length ≤ fuel →
      feedChunksAux chunk_size fuel l = l := by
  intro fuel
  induction fuel with
  | zero =>
    intro l hl
    have : l = [] := List.length_eq_zero.mp (Nat.le_zero.mp hl)
    simp [this, feedChunksAux]
  | succ fuel ih =>
    intro l hl
    rcases l with _ | ⟨x, rest⟩
    · simp [feedChunksAux]
    · have htake : ((x :: rest).take chunk_size).isEmpty = false := by
        rcases chunk_size with _ | n
        · exact absurd hpos (by simp)
        · simp [List.take]
      rw [feedChunksAux]
      simp only [htake, Bool.false_eq_true, if_false]
      rw [ih ((x :: rest).drop chunk_size)
        (by simp only [List.length_drop]; simp at hl ⊢; omega)]
      exact List.take_append_drop _ _

/-- With any positive chunk size the read loop feeds the accumulator exactly
the file's content: the digest is taken over the entire byte content and is
independent of the chunk size. -/
theorem feedChunks_eq_self {chunk_size : Nat} (hpos : 0 < chunk_size) (content : List Nat) :
    feedChunks chunk_size content = content :=
  feedChunksAux_eq_self hpos _ content (Nat.le_refl _)

/-! ## Lemmas: the grouping table -/

/-- The paths among `pairs` recorded under digest `k`, in pair order. -/
def valsOf (k : String) (pairs : List (String × String)) : List String :=
  (pairs.filter fun p => p.1 = k).map Prod.snd

theorem lookupKey_updateKey (d : List (String × List String)) (k v k') :
    lookupKey (updateKey d k v) k' =
      if k = k' then (lookupKey d k').map (· ++ [v]) else lookupKey d k' := by
  by_cases hkk : k = k'
  · subst hkk
    induction d with
    | nil => simp [updateKey, lookupKey]
    | cons e rest ih =>
      obtain ⟨k₁, vs⟩ := e
      by_cases h1 : k₁ = k
      · simp [updateKey, lookupKey, h1]
      · simpa [updateKey, lookupKey, h1] using ih
  · induction d with
    | nil => simp [updateKey, lookupKey, hkk]
    | cons e rest ih =>
      obtain ⟨k₁, vs⟩ := e
      by_cases h1 : k₁ = k
      · simp [updateKey, lookupKey, h1, hkk]
      · by_cases h2 : k₁ = k'
        · have h3 : ¬ (k' = k) := fun hh => hkk hh.symm
          simp [updateKey, lookupKey, h1, h2, h3, hkk]
        · simpa [updateKey, lookupKey, h1, h2, hkk] using ih

theorem lookupKey_append (d d' : List (String × List String)) (k) :
    lookupKey (d ++ d') k =
      match lookupKey d k with
      | some vs => some vs
      | none => lookupKey d' k := by
  induction d with
  | nil => simp [lookupKey]
  | cons e rest ih =>
    obtain ⟨k₁, vs⟩ := e
    by_cases h : k₁ = k
    · simp [lookupKey, h]
    · simp [lookupKey, h, ih]

theorem contains_eq_isSome (d : List (String × List String)) (k : String) :
    (d.map Prod.fst).contains k = (lookupKey d k).isSome := by
  induction d with
  | nil => simp [lookupKey]
  | cons e rest ih =>
    obtain ⟨k₁, vs⟩ := e
    by_cases h : k₁ = k
    · simp [lookupKey, h]
    · have hne : (k == k₁) = false := by
        simp only [beq_eq_false_iff_ne, ne_eq]
        exact fun hh => h hh.symm
      simpa [lookupKey, h, List.contains_cons, hne] using ih

theorem lookupKey_addPair (d : List (String × List String)) (k v k') :
    lookupKey (addPair d k v) k' =
      if k = k' then some (((lookupKey d k').getD []) ++ [v]) else lookupKey d k' := by
  unfold addPair
  by_cases hc : ((d.map Prod.fst).contains k : Bool)
  · rw [if_pos hc, lookupKey_updateKey]
    by_cases hk : k = k'
    · subst hk
      rw [contains_eq_isSome] at hc
      obtain ⟨vs, hvs⟩ := Option.isSome_iff_exists.mp hc
      simp [hvs]
    · simp [hk]
  · rw [if_neg hc, lookupKey_append]
    rw [contains_eq_isSome] at hc
    have hnone : lookupKey d k = none := by
      rcases h : lookupKey d k with _ | vs
      · rfl
      · exact absurd (by simp [h]) hc
    by_cases hk : k = k'
    · subst hk; simp [hnone, lookupKey]
    · have hne : ¬ (k = k') := hk
      rcases h' : lookupKey d k' with _ | vs
      · simp [h', lookupKey, hne]
      · simp [h', hne]

/-- Extending an optional group with newly recorded paths. -/
def extendOpt (o : Option (List String)) (vs : List String) : Option (List String) :=
  match o with
  | some xs => some (xs ++ vs)
  | none => if vs = [] then none else some vs

theorem extendOpt_nil (o : Option (List String)) : extendOpt o [] = o := by
  rcases o with _ | xs <;> simp [extendOpt]

theorem lookupKey_foldl_addPair (pairs : List (String × String))
    (d : List (String × List String)) (k : String) :
    lookupKey (pairs.foldl (fun d p => addPair d p.1 p.2) d) k =
      extendOpt (lookupKey d k) (valsOf k pairs) := by
  induction pairs generalizing d with
  | nil => simp [valsOf, extendOpt_nil]
  | cons p rest ih =>
    obtain ⟨k₁, v₁⟩ := p
    rw [List.foldl_cons, ih, lookupKey_addPair]
    by_cases hk : k₁ = k
    · subst hk
      have hv : valsOf k₁ ((k₁, v₁) :: rest) = v₁ :: valsOf k₁ rest := by
        simp [valsOf, List.filter_cons]
      rw [hv]
      rcases h : lookupKey d k₁ with _ | xs
      · simp [extendOpt]
      · simp [extendOpt]
    · have hv : valsOf k ((k₁, v₁) :: rest) = valsOf k rest := by
        simp [valsOf, List.filter_cons, hk]
      rw [hv, if_neg hk]

/-- The value stored in the grouping table under digest `k` is exactly the
list of paths among the consumed pairs that carry digest `k`, in consumption
order (and `k` is a key exactly when such a pair exists). -/
theorem lookupKey_group (pairs : List (String × String)) (k : String) :
    lookupKey (group_files_by_hash pairs) k =
      if valsOf k pairs = [] then none else some (valsOf k pairs) := by
  rw [group_files_by_hash, lookupKey_foldl_addPair]
  simp [lookupKey, extendOpt]

theorem mem_of_lookupKey {d : List (String × List String)} {k : String} {vs : List String}
    (h : lookupKey d k = some vs) : (k, vs) ∈ d := by
  induction d with
  | nil => simp [lookupKey] at h
  | cons e rest ih =>
    obtain ⟨k₁, vs₁⟩ := e
    rw [lookupKey] at h
    split_ifs at h with hk
    · obtain rfl := Option.some.injEq _ _ ▸ h
      exact hk ▸ List.mem_cons_self _ _
    · exact List.mem_cons_of_mem _ (ih h)

/-- Two pairs carrying the same digest end up in the same group of the
grouping table. -/
theorem same_digest_same_group (pairs : List (String × String)) (k p q : String)
    (hp : (k, p) ∈ pairs) (hq : (k, q) ∈ pairs) :
    ∃ ps, (k, ps) ∈ group_files_by_hash pairs ∧ p ∈ ps ∧ q ∈ ps := by
  have hpv : p ∈ valsOf k pairs := by
    simp only [valsOf, List.mem_map]
    exact ⟨(k, p), List.mem_filter.mpr ⟨hp, by simp⟩, rfl⟩
  have hqv : q ∈ valsOf k pairs := by
    simp only [valsOf, List.mem_map]
    exact ⟨(k, q), List.mem_filter.mpr ⟨hq, by simp⟩, rfl⟩
  have hne : valsOf k pairs ≠ [] := by
    intro h; rw [h] at hpv; simp at hpv
  refine ⟨valsOf k pairs, ?_, hpv, hqv⟩
  exact mem_of_lookupKey (by rw [lookupKey_group, if_neg hne])

/-! ## Lemmas: counting -/

/-- Total number of paths stored in a grouping table. -/
def sumSizes (t : List (String × List String)) : Nat :=
  (t.map fun g => g.2.length).sum

theorem sumSizes_updateKey (d : List (String × List String)) (k v) :
    sumSizes (updateKey d k v) =
      sumSizes d + (if (d.map Prod.fst).contains k then 1 else 0) := by
  induction d with
  | nil => simp [updateKey, sumSizes]
  | cons e rest ih =>
    obtain ⟨k₁, vs⟩ := e
    by_cases h : k₁ = k
    · simp [updateKey, sumSizes, h, List.contains_cons]
      omega
    · have hne : (k == k₁) = false := by
        simp only [beq_eq_false_iff_ne, ne_eq]
        exact fun hh => h hh.symm
      simp only [updateKey, if_neg h, sumSizes, List.map_cons, List.sum_cons,
        List.contains_cons, hne, Bool.false_or] at *
      omega

theorem sumSizes_addPair (d : List (String × List String)) (k v) :
    sumSizes (addPair d k v) = sumSizes d + 1 := by
  unfold addPair
  cases hc : (d.map Prod.fst).contains k
  · simp [hc, sumSizes]
  · have hs := contains_eq_isSome d k
    rw [hc] at hs
    obtain ⟨vs, hvs⟩ := Option.isSome_iff_exists.mp hs.symm
    simp [hc, sumSizes_updateKey]
    exact ⟨vs, mem_of_lookupKey hvs⟩

theorem sumSizes_foldl (pairs : List (String × String)) (d : List (String × List String)) :
    sumSizes (pairs.foldl (fun d p => addPair d p.1 p.2) d) = sumSizes d + pairs.length := by
  induction pairs generalizing d with
  | nil => simp
  | cons p rest ih =>
    rw [List.foldl_cons, ih, sumSizes_addPair]
    simp [Nat.add_assoc, Nat.add_comm 1]

/-- Every group of the table built from any starting table whose groups are
all non-empty is non-empty. -/
theorem groups_ne_nil (pairs : List (String × String)) (d : List (String × List String))
    (hd : ∀ g ∈ d, g.2 ≠ []) :
    ∀ g ∈ pairs.foldl (fun d p => addPair d p.1 p.2) d, g.2 ≠ [] := by
  induction pairs generalizing d with
  | nil => simpa using hd
  | cons p rest ih =>
    rw [List.foldl_cons]
    refine ih _ ?_
    intro g hg
    unfold addPair at hg
    split_ifs at hg with hc
    · -- updateKey preserves non-emptiness
      clear ih hc
      induction d with
      | nil => simp [updateKey] at hg
      | cons e es ihe =>
        obtain ⟨k₁, vs⟩ := e
        rw [updateKey] at hg
        split_ifs at hg with hk
        · rcases List.mem_cons.mp hg with rfl | hmem
          · simp
          · exact hd _ (List.mem_cons_of_mem _ hmem)
        · rcases List.mem_cons.mp hg with rfl | hmem
          · exact hd _ (List.mem_cons_self _ _)
          · exact ihe (fun g' hg' => hd g' (List.mem_cons_of_mem _ hg')) hmem
    · rcases List.mem_append.mp hg with hmem | hmem
      · exact hd _ hmem
      · simp only [List.mem_singleton] at hmem
        subst hmem; simp

theorem length_le_sumSizes (t : List (String × List String)) (h : ∀ g ∈ t, g.2 ≠ []) :
    t.length ≤ sumSizes t := by
  induction t with
  | nil => simp [sumSizes]
  | cons g rest ih =>
    have h1 : 1 ≤ g.2.length :=
      List.length_pos.mpr (h g (List.mem_cons_self _ _))
    have h2 := ih fun g' hg' => h g' (List.mem_cons_of_mem _ hg')
    simp only [sumSizes, List.map_cons, List.sum_cons, List.length_cons] at *
    omega

theorem sum_group_sizes_pred (t : List (String × List String)) (h : ∀ g ∈ t, g.2 ≠ []) :
    (t.map fun g => g.2.length - 1).sum = sumSizes t - t.length := by
  induction t with
  | nil => simp [sumSizes]
  | cons g rest ih =>
    have h1 : 1 ≤ g.2.length :=
      List.length_pos.mpr (h g (List.mem_cons_self _ _))
    have h2 := ih fun g' hg' => h g' (List.mem_cons_of_mem _ hg')
    have h3 := length_le_sumSizes rest fun g' hg' => h g' (List.mem_cons_of_mem _ hg')
    simp only [sumSizes, List.map_cons, List.sum_cons, List.length_cons] at *
    omega

/-- The grouping table of `pairs` stores each consumed pair once: the group
sizes sum to the number of pairs, and there are at most as many groups as
pairs. -/
theorem group_sizes (pairs : List (String × String)) :
    sumSizes (group_files_by_hash pairs) = pairs.length ∧
      (group_files_by_hash pairs).length ≤ pairs.length ∧
      (∀ g ∈ group_files_by_hash pairs, g.2 ≠ []) := by
  have h1 : sumSizes (group_files_by_hash pairs) = pairs.length := by
    rw [group_files_by_hash, sumSizes_foldl]; simp [sumSizes]
  have h2 : ∀ g ∈ group_files_by_hash pairs, g.2 ≠ [] :=
    groups_ne_nil pairs [] (by simp)
  exact ⟨h1, h1 ▸ length_le_sumSizes _ h2, h2⟩

/-! ## Lemmas: sorting -/

theorem lexLe_total (x y : List Char) : lexLe x y = true ∨ lexLe y x = true := by
  induction x generalizing y with
  | nil => left; rfl
  | cons c cs ih =>
    rcases y with _ | ⟨d, ds⟩
    · right; rfl
    · rcases lt_trichotomy c d with h | h | h
      · left; simp [lexLe, h]
      · subst h
        rcases ih ds with hle | hle
        · left; simp [lexLe, lt_irrefl, hle]
        · right; simp [lexLe, lt_irrefl, hle]
      · right; simp [lexLe, h]

theorem lexLe_trans {x y z : List Char} (hxy : lexLe x y = true) (hyz : lexLe y z = true) :
    lexLe x z = true := by
  induction x generalizing y z with
  | nil => rfl
  | cons c cs ih =>
    rcases y with _ | ⟨d, ds⟩
    · exact absurd hxy (by simp [lexLe])
    · rcases z with _ | ⟨e, es⟩
      · exact absurd hyz (by simp [lexLe])
      · rcases lt_trichotomy d e with h2 | h2 | h2
        · rcases lt_trichotomy c d with h1 | h1 | h1
          · simp [lexLe, h1.trans h2]
          · subst h1; simp [lexLe, h2]
          · rw [lexLe, if_neg (lt_asymm h1), if_pos h1] at hxy
            exact absurd hxy (by simp)
        · subst h2
          rcases lt_trichotomy c d with h1 | h1 | h1
          · simp [lexLe, h1]
          · subst h1
            simp only [lexLe, lt_self_iff_false, if_false] at hxy hyz ⊢
            exact ih hxy hyz
          · rw [lexLe, if_neg (lt_asymm h1), if_pos h1] at hxy
            exact absurd hxy (by simp)
        · rw [lexLe, if_neg (lt_asymm h2), if_pos h2] at hyz
          exact absurd hyz (by simp)

theorem lexLe_antisymm {x y : List Char} (hxy : lexLe x y = true) (hyx : lexLe y x = true) :
    x = y := by
  induction x generalizing y with
  | nil =>
    rcases y with _ | ⟨d, ds⟩
    · rfl
    · exact absurd hyx (by simp [lexLe])
  | cons c cs ih =>
    rcases y with _ | ⟨d, ds⟩
    · exact absurd hxy (by simp [lexLe])
    · rcases lt_trichotomy c d with h1 | h1 | h1
      · rw [lexLe, if_neg (lt_asymm h1), if_pos h1] at hyx
        exact absurd hyx (by simp)
      · subst h1
        simp only [lexLe, lt_self_iff_false, if_false] at hxy hyx
        rw [ih hxy hyx]
      · rw [lexLe, if_neg (lt_asymm h1), if_pos h1] at hxy
        exact absurd hxy (by simp)

instance : IsTotal String pathLe :=
  ⟨fun a b => lexLe_total a.data b.data⟩

instance : IsTrans String pathLe :=
  ⟨fun _ _ _ => lexLe_trans⟩

instance : IsAntisymm String pathLe :=
  ⟨fun a b hab hba => by
    have h := lexLe_antisymm hab hba
    cases a; cases b
    exact congrArg String.mk h⟩

/-- Sorting is insensitive to the input's enumeration order: any two
rearrangements of the same path multiset sort to the same list. -/
theorem sortPaths_perm_eq {l₁ l₂ : List String} (h : l₁.Perm l₂) :
    sortPaths l₁ = sortPaths l₂ := by
  show List.insertionSort pathLe l₁ = List.insertionSort pathLe l₂
  exact List.eq_of_perm_of_sorted
    (((List.perm_insertionSort pathLe l₁).trans h).trans
      (List.perm_insertionSort pathLe l₂).symm)
    (List.sorted_insertionSort pathLe l₁)
    (List.sorted_insertionSort pathLe l₂)

/-! ## Lemmas: the scanner -/

/-- The filter that one walk entry's file loop applies when it is not cut
short by the non-recursive `break`. -/
def passFilter (includeHidden : Bool) (root : String) (f : String) : Bool :=
  (includeHidden || !startsDot f) && !(IGNORE_LIST.any fun ig => strIn ig root)

/-- Closed form of the file loop: the `break` empties the collection exactly
when the mode is non-recursive and the entry is not the root itself;
otherwise the loop is a filter followed by a join with the entry's root. -/
theorem collectFiles_eq (recursive includeHidden : Bool) (directory root : String)
    (files : List String) :
    collectFiles recursive includeHidden directory root files =
      if !recursive && directory != root then []
      else (files.filter (passFilter includeHidden root)).map (pathJoin root) := by
  induction files with
  | nil => rw [collectFiles]; split <;> rfl
  | cons file rest ih =>
    rw [collectFiles]
    by_cases hb : (!recursive && directory != root) = true
    · rw [if_pos hb, if_pos hb]
    · rw [if_neg hb] at ih
      rw [if_neg hb, if_neg hb]
      by_cases hh : (!includeHidden && startsDot file) = true
      · rw [if_pos hh, ih, List.filter_cons]
        have hpass : passFilter includeHidden root file = false := by
          cases hinc : includeHidden <;> simp_all [passFilter]
        rw [hpass]
        simp
      · rw [if_neg hh]
        by_cases hig : (IGNORE_LIST.any fun ig => strIn ig root) = true
        · rw [if_pos hig, ih, List.filter_cons]
          have hpass : passFilter includeHidden root file = false := by
            simp [passFilter, hig]
          rw [hpass]
          simp
        · rw [if_neg hig, ih, List.filter_cons]
          have hpass : passFilter includeHidden root file = true := by
            cases hinc : includeHidden <;> cases hsd : startsDot file <;>
              simp_all [passFilter]
          rw [hpass]
          simp

theorem mem_setAdd {s : List String} {x p : String} :
    p ∈ setAdd s x ↔ p ∈ s ∨ p = x := by
  unfold setAdd
  split_ifs with hm
  · constructor
    · exact Or.inl
    · rintro (h | rfl) <;> [exact h; exact hm]
  · simp

theorem mem_foldl_setAdd (l : List String) (acc : List String) (p : String) :
    p ∈ l.foldl setAdd acc ↔ p ∈ acc ∨ p ∈ l := by
  induction l generalizing acc with
  | nil => simp
  | cons x rest ih =>
    rw [List.foldl_cons, ih, mem_setAdd]
    simp only [List.mem_cons]
    tauto

theorem mem_foldl_entries (recursive includeHidden : Bool) (d : String)
    (entries : List (String × List String)) (acc : List String) (p : String) :
    p ∈ entries.foldl
        (fun a e => (collectFiles recursive includeHidden d e.1 e.2).foldl setAdd a) acc ↔
      p ∈ acc ∨ ∃ e ∈ entries, p ∈ collectFiles recursive includeHidden d e.1 e.2 := by
  induction entries generalizing acc with
  | nil => simp
  | cons e rest ih =>
    rw [List.foldl_cons, ih, mem_foldl_setAdd]
    simp only [List.mem_cons]
    constructor
    · rintro ((h | h) | ⟨e', he', hp⟩)
      · exact Or.inl h
      · exact Or.inr ⟨e, Or.inl rfl, h⟩
      · exact Or.inr ⟨e', Or.inr he', hp⟩
    · rintro (h | ⟨e', (rfl | he'), hp⟩)
      · exact Or.inl (Or.inl h)
      · exact Or.inl (Or.inr hp)
      · exact Or.inr ⟨e', he', hp⟩

/-- Membership in the scanner's result, in terms of the walk entries: a path
is returned exactly when some walk entry of some directory argument collects
it. -/
theorem mem_scanFiles (recursive includeHidden : Bool) (dirs : List (String × FSTree))
    (p : String) :
    p ∈ scanFiles recursive includeHidden dirs ↔
      ∃ dt ∈ dirs, ∃ e ∈ osWalk dt.1 dt.2,
        p ∈ collectFiles recursive includeHidden dt.1 e.1 e.2 := by
  show p ∈ dirs.foldl _ [] ↔ _
  have general : ∀ (ds : List (String × FSTree)) (acc : List String),
      p ∈ ds.foldl
          (fun acc dt =>
            (osWalk dt.1 dt.2).foldl
              (fun acc2 e =>
                (collectFiles recursive includeHidden dt.1 e.1 e.2).foldl setAdd acc2) acc)
          acc ↔
        p ∈ acc ∨ ∃ dt ∈ ds, ∃ e ∈ osWalk dt.1 dt.2,
          p ∈ collectFiles recursive includeHidden dt.1 e.1 e.2 := by
    intro ds
    induction ds with
    | nil => simp
    | cons dt rest ih =>
      intro acc
      rw [List.foldl_cons, ih, mem_foldl_entries]
      simp only [List.mem_cons]
      constructor
      · rintro ((h | ⟨e, he, hp⟩) | ⟨dt', hdt', he⟩)
        · exact Or.inl h
        · exact Or.inr ⟨dt, Or.inl rfl, e, he, hp⟩
        · exact Or.inr ⟨dt', Or.inr hdt', he⟩
      · rintro (h | ⟨dt', (rfl | hdt'), he⟩)
        · exact Or.inl (Or.inl h)
        · exact Or.inl (Or.inr he)
        · exact Or.inr ⟨dt', hdt', he⟩
  rw [general dirs []]
  simp

/-- Full membership characterization of the scanner: a path is returned
exactly when it is the join of a walk entry's root with one of that entry's
file names, the entry is the argument root itself unless the mode is
recursive, the file name is not hidden unless hidden files are included, and
the entry's root contains no ignore-list fragment. -/
theorem mem_scanFiles_iff (recursive includeHidden : Bool) (dirs : List (String × FSTree))
    (p : String) :
    p ∈ scanFiles recursive includeHidden dirs ↔
      ∃ dt ∈ dirs, ∃ e ∈ osWalk dt.1 dt.2, ∃ f ∈ e.2,
        p = pathJoin e.1 f ∧
        (recursive = true ∨ dt.1 = e.1) ∧
        (includeHidden = true ∨ startsDot f = false) ∧
        (IGNORE_LIST.any fun ig => strIn ig e.1) = false := by
  rw [mem_scanFiles]
  refine exists_congr fun dt => and_congr_right fun _ => ?_
  refine exists_congr fun e => and_congr_right fun _ => ?_
  rw [collectFiles_eq]
  by_cases hb : (!recursive && dt.1 != e.1) = true
  · have hnb : ¬(recursive = true ∨ dt.1 = e.1) := by
      simp only [Bool.and_eq_true, Bool.not_eq_true', bne_iff_ne, ne_eq] at hb
      rintro (h | h)
      · rw [h] at hb; exact absurd hb.1 (by simp)
      · exact hb.2 h
    simp [hb, hnb]
  · have hnb : recursive = true ∨ dt.1 = e.1 := by
      rcases Bool.and_eq_false_iff.mp (Bool.not_eq_true _ ▸ hb) with h | h
      · exact Or.inl (by simpa using h)
      · exact Or.inr (by simpa using h)
    rw [if_neg hb]
    simp only [List.mem_map, List.mem_filter]
    constructor
    · rintro ⟨f, ⟨hf, hpass⟩, rfl⟩
      refine ⟨f, hf, rfl, hnb, ?_⟩
      revert hpass
      unfold passFilter
      cases hinc : includeHidden <;> cases hsd : startsDot f <;>
        cases hig : (IGNORE_LIST.any fun ig => strIn ig e.1) <;> simp
    · rintro ⟨f, hf, rfl, _, hcond⟩
      refine ⟨f, ⟨hf, ?_⟩, rfl⟩
      revert hcond
      unfold passFilter
      cases hinc : includeHidden <;> cases hsd : startsDot f <;>
        cases hig : (IGNORE_LIST.any fun ig => strIn ig e.1) <;> simp

theorem setAdd_nodup {s : List String} {x : String} (h : s.Nodup) : (setAdd s x).Nodup := by
  unfold setAdd
  split_ifs with hm
  · exact h
  · rw [List.nodup_append]
    refine ⟨h, List.nodup_singleton x, fun a ha hb => hm ?_⟩
    rw [List.mem_singleton] at hb
    exact hb ▸ ha

theorem foldl_setAdd_nodup (l acc : List String) (h : acc.Nodup) :
    (l.foldl setAdd acc).Nodup := by
  induction l generalizing acc with
  | nil => exact h
  | cons x rest ih => exact ih _ (setAdd_nodup h)

/-- The scanner result is duplicate-free: the Python `set` collapses repeated
additions of the same path string. -/
theorem scanFiles_nodup (recursive includeHidden : Bool) (dirs : List (String × FSTree)) :
    (scanFiles recursive includeHidden dirs).Nodup := by
  show (dirs.foldl _ []).Nodup
  suffices hgen : ∀ (ds : List (String × FSTree)) (acc : List String), acc.Nodup →
      (ds.foldl
        (fun acc dt =>
          (osWalk dt.1 dt.2).foldl
            (fun acc2 e =>
              (collectFiles recursive includeHidden dt.1 e.1 e.2).foldl setAdd acc2) acc)
        acc).Nodup by
    exact hgen dirs [] List.nodup_nil
  intro ds
  induction ds with
  | nil => exact fun acc h => h
  | cons dt rest ih =>
    intro acc hacc
    rw [List.foldl_cons]
    refine ih _ ?_
    have hinner : ∀ (es : List (String × List String)) (a : List String), a.Nodup →
        (es.foldl
          (fun acc2 e =>
            (collectFiles recursive includeHidden dt.1 e.1 e.2).foldl setAdd acc2) a).Nodup := by
      intro es
      induction es with
      | nil => exact fun a h => h
      | cons e es' ihe =>
        intro a ha
        rw [List.foldl_cons]
        exact ihe _ (foldl_setAdd_nodup _ _ ha)
    exact hinner _ _ hacc

/-! ## Lemmas: absolute paths -/

theorem isAbs_append {root : String} (h : isAbs root = true) (s : String) :
    isAbs (root ++ s) = true := by
  obtain ⟨l⟩ := root
  rcases l with _ | ⟨c, cs⟩
  · exact absurd h (by simp [isAbs])
  · have hd : (String.mk (c :: cs) ++ s).data = c :: (cs ++ s.data) := by
      rw [String.data_append]
      rfl
    unfold isAbs at h ⊢
    rw [hd]
    simpa using h

theorem pathJoin_isAbs {root : String} (h : isAbs root = true) (f : String) :
    isAbs (pathJoin root f) = true := by
  unfold pathJoin
  split_ifs with h1 h2 h3
  · exact h1
  · subst h2; exact absurd h (by simp [isAbs])
  · exact isAbs_append h f
  · rw [String.append_assoc]
    exact isAbs_append h ("/" ++ f)

mutual

theorem osWalk_isAbs : ∀ (t : FSTree) (path : String), isAbs path = true →
    ∀ e ∈ osWalk path t, isAbs e.1 = true
  | FSTree.dir _ files subdirs, path, hp, e, he => by
    rw [osWalk] at he
    rcases List.mem_cons.mp he with rfl | hmem
    · exact hp
    · exact osWalkList_isAbs subdirs path hp e hmem

theorem osWalkList_isAbs : ∀ (ts : List FSTree) (path : String), isAbs path = true →
    ∀ e ∈ osWalkList path ts, isAbs e.1 = true
  | [], _, _, _, he => absurd he (by rw [osWalkList]; simp)
  | t :: ts, path, hp, e, he => by
    rw [osWalkList] at he
    rcases List.mem_append.mp he with hmem | hmem
    · exact osWalk_isAbs t (pathJoin path t.name) (pathJoin_isAbs hp t.name) e hmem
    · exact osWalkList_isAbs ts path hp e hmem

end

/-! ## Lemmas: the hashing loop -/

theorem hashAll_length {fs : String → Option (List Nat)} {c : Nat} :
    ∀ {l : List String} {pairs : List (String × String)},
      hashAll fs c l = Except.ok pairs → pairs.length = l.length := by
  intro l
  induction l with
  | nil =>
    intro pairs h
    rw [hashAll] at h
    cases h
    rfl
  | cons p rest ih =>
    intro pairs h
    rw [hashAll] at h
    rcases h1 : get_file_hash fs p c with e | hsh
    · rw [h1] at h; cases h
    · rw [h1] at h
      rcases h2 : hashAll fs c rest with e | tl
      · rw [h2] at h; cases h
      · rw [h2] at h
        cases h
        simpa using ih h2

theorem hashAll_pairs {fs : String → Option (List Nat)} {c : Nat} :
    ∀ {l : List String} {pairs : List (String × String)},
      hashAll fs c l = Except.ok pairs →
      ∀ q ∈ pairs, q.2 ∈ l ∧ get_file_hash fs q.2 c = Except.ok q.1 := by
  intro l
  induction l with
  | nil =>
    intro pairs h
    rw [hashAll] at h
    cases h
    simp
  | cons p rest ih =>
    intro pairs h
    rw [hashAll] at h
    rcases h1 : get_file_hash fs p c with e | hsh
    · rw [h1] at h; cases h
    · rw [h1] at h
      rcases h2 : hashAll fs c rest with e | tl
      · rw [h2] at h; cases h
      · rw [h2] at h
        cases h
        intro q hq
        rcases List.mem_cons.mp hq with rfl | hmem
        · exact ⟨List.mem_cons_self _ _, h1⟩
        · obtain ⟨hmem', hh⟩ := ih h2 q hmem
          exact ⟨List.mem_cons_of_mem _ hmem', hh⟩

/-- If some file of the list cannot be read, the hashing loop aborts with an
error carrying a failing path of the list. -/
theorem hashAll_error {fs : String → Option (List Nat)} {c : Nat} :
    ∀ {l : List String}, (∃ p ∈ l, fs p = none) →
      ∃ p ∈ l, hashAll fs c l = Except.error p ∧ fs p = none := by
  intro l
  induction l with
  | nil => rintro ⟨p, hp, _⟩; simp at hp
  | cons p rest ih =>
    rintro ⟨q, hq, hnone⟩
    rcases hfp : fs p with _ | content
    · refine ⟨p, List.mem_cons_self _ _, ?_, hfp⟩
      rw [hashAll]
      have : get_file_hash fs p c = Except.error p := by
        unfold get_file_hash
        rw [hfp]
      rw [this]
    · rcases List.mem_cons.mp hq with rfl | hmem
      · rw [hfp] at hnone; cases hnone
      · obtain ⟨q', hq', herr, hnone'⟩ := ih ⟨q, hmem, hnone⟩
        refine ⟨q', List.mem_cons_of_mem _ hq', ?_, hnone'⟩
        rw [hashAll]
        have : get_file_hash fs p c = Except.ok (md5hex (feedChunks c content)) := by
          unfold get_file_hash
          rw [hfp]
        rw [this, herr]

/-! ## The claims -/

/-- C1: for every readable file and every positive chunk size,
`get_file_hash` returns the lowercase fixed-width (32-character) hexadecimal
MD5 digest of the file's entire byte content — in particular the result does
not depend on the chunk size — and any two files carrying the same digest
are placed into one group by the grouper. -/
theorem claim_C1 (fs : String → Option (List Nat)) (path : String) (content : List Nat)
    (chunk_size : Nat) (hfs : fs path = some content) (hpos : 0 < chunk_size) :
    get_file_hash fs path chunk_size = Except.ok (md5hex content) ∧
    (md5hex content).length = 32 ∧
    (∀ c ∈ (md5hex content).data, c ∈ hexAlphabet) ∧
    (∀ (pairs : List (String × String)) (p q : String),
      (md5hex content, p) ∈ pairs → (md5hex content, q) ∈ pairs →
      ∃ ps, (md5hex content, ps) ∈ group_files_by_hash pairs ∧ p ∈ ps ∧ q ∈ ps) := by
  refine ⟨?_, md5hex_length content, md5hex_data_mem content,
    fun pairs p q hp hq => same_digest_same_group pairs _ p q hp hq⟩
  unfold get_file_hash
  rw [hfs]
  show Except.ok (md5hex (feedChunks chunk_size content)) = _
  rw [feedChunks_eq_self hpos]

/-- Witness for C1 at a concrete two-byte file and chunk size 1. -/
theorem claim_C1_witness :
    get_file_hash (fun _ => some [104, 105]) "f" 1 = Except.ok (md5hex [104, 105]) :=
  (claim_C1 (fun _ => some [104, 105]) "f" [104, 105] 1 rfl (by decide)).1

/-- C2: on every successful run the reported counts satisfy
`total = unique + duplicates` and `duplicates = Σ over all groups of
(group size - 1)`, where `total` is the size of the scanned (sorted) path
list and `unique` the number of distinct digest keys of the grouping
table. -/
theorem claim_C2 (fs : String → Option (List Nat)) (chunk_size : Nat)
    (recursive includeHidden : Bool) (dirs : List (String × FSTree)) (rep : RunReport)
    (h : mainRun fs chunk_size recursive includeHidden dirs = Except.ok rep) :
    rep.total = rep.unique + rep.duplicates ∧
    rep.duplicates = (rep.table.map fun g => g.2.length - 1).sum ∧
    rep.total = (sortPaths (scanFiles recursive includeHidden dirs)).length ∧
    rep.unique = rep.table.length := by
  unfold mainRun mainRunPaths at h
  rcases heq : hashAll fs chunk_size (sortPaths (scanFiles recursive includeHidden dirs))
    with e | pairs
  · rw [heq] at h; cases h
  · rw [heq] at h
    cases h
    obtain ⟨hsum, hle, hne⟩ := group_sizes pairs
    have hlen : pairs.length = (sortPaths (scanFiles recursive includeHidden dirs)).length :=
      hashAll_length heq
    refine ⟨?_, ?_, rfl, rfl⟩
    · show (sortPaths (scanFiles recursive includeHidden dirs)).length =
        (group_files_by_hash pairs).length +
          ((sortPaths (scanFiles recursive includeHidden dirs)).length -
            (group_files_by_hash pairs).length)
      omega
    · show (sortPaths (scanFiles recursive includeHidden dirs)).length -
          (group_files_by_hash pairs).length =
        ((group_files_by_hash pairs).map fun g => g.2.length - 1).sum
      rw [sum_group_sizes_pred _ hne]
      omega

/-- Witness for C2 at a concrete run of three files, two of them equal. -/
theorem claim_C2_witness :
    (buildReport
        (sortPaths (scanFiles true false
          [("A", FSTree.dir "A" ["x.txt", "y.txt", "z.txt"] [])]))
        [(md5hex [104], "A/x.txt"), (md5hex [104], "A/y.txt"),
          (md5hex [119], "A/z.txt")]).total =
      (buildReport
        (sortPaths (scanFiles true false
          [("A", FSTree.dir "A" ["x.txt", "y.txt", "z.txt"] [])]))
        [(md5hex [104], "A/x.txt"), (md5hex [104], "A/y.txt"),
          (md5hex [119], "A/z.txt")]).unique +
      (buildReport
        (sortPaths (scanFiles true false
          [("A", FSTree.dir "A" ["x.txt", "y.txt", "z.txt"] [])]))
        [(md5hex [104], "A/x.txt"), (md5hex [104], "A/y.txt"),
          (md5hex [119], "A/z.txt")]).duplicates ∧
    (buildReport
        (sortPaths (scanFiles true false
          [("A", FSTree.dir "A" ["x.txt", "y.txt", "z.txt"] [])]))
        [(md5hex [104], "A/x.txt"), (md5hex [104], "A/y.txt"),
          (md5hex [119], "A/z.txt")]).duplicates =
      ((buildReport
        (sortPaths (scanFiles true false
          [("A", FSTree.dir "A" ["x.txt", "y.txt", "z.txt"] [])]))
        [(md5hex [104], "A/x.txt"), (md5hex [104], "A/y.txt"),
          (md5hex [119], "A/z.txt")]).table.map fun g => g.2.length - 1).sum ∧
    (buildReport
        (sortPaths (scanFiles true false
          [("A", FSTree.dir "A" ["x.txt", "y.txt", "z.txt"] [])]))
        [(md5hex [104], "A/x.txt"), (md5hex [104], "A/y.txt"),
          (md5hex [119], "A/z.txt")]).total =
      (sortPaths (scanFiles true false
        [("A", FSTree.dir "A" ["x.txt", "y.txt", "z.txt"] [])])).length ∧
    (buildReport
        (sortPaths (scanFiles true false
          [("A", FSTree.dir "A" ["x.txt", "y.txt", "z.txt"] [])]))
        [(md5hex [104], "A/x.txt"), (md5hex [104], "A/y.txt"),
          (md5hex [119], "A/z.txt")]).unique =
      (buildReport
        (sortPaths (scanFiles true false
          [("A", FSTree.dir "A" ["x.txt", "y.txt", "z.txt"] [])]))
        [(md5hex [104], "A/x.txt"), (md5hex [104], "A/y.txt"),
          (md5hex [119], "A/z.txt")]).table.length :=
  claim_C2
    (fun p => if p = "A/z.txt" then some [119] else some [104]) 1 true false
    [("A", FSTree.dir "A" ["x.txt", "y.txt", "z.txt"] [])]
    (buildReport
      (sortPaths (scanFiles true false
        [("A", FSTree.dir "A" ["x.txt", "y.txt", "z.txt"] [])]))
      [(md5hex [104], "A/x.txt"), (md5hex [104], "A/y.txt"),
        (md5hex [119], "A/z.txt")])
    (by rfl)

/-- C3: on every successful run the duplicate report is the grouping table
restricted to exactly the keys whose path list has more than one element:
every reported group has at least two members, and a group is reported
exactly when it is a table group with more than one member. -/
theorem claim_C3 (fs : String → Option (List Nat)) (chunk_size : Nat)
    (recursive includeHidden : Bool) (dirs : List (String × FSTree)) (rep : RunReport)
    (h : mainRun fs chunk_size recursive includeHidden dirs = Except.ok rep) :
    (∀ g ∈ rep.report, 2 ≤ g.2.length) ∧
    (∀ k ps, (k, ps) ∈ rep.report ↔ ((k, ps) ∈ rep.table ∧ 1 < ps.length)) := by
  unfold mainRun mainRunPaths at h
  rcases heq : hashAll fs chunk_size (sortPaths (scanFiles recursive includeHidden dirs))
    with e | pairs
  · rw [heq] at h; cases h
  · rw [heq] at h
    cases h
    constructor
    · intro g hg
      have := (List.mem_filter.mp hg).2
      simpa using this
    · intro k ps
      constructor
      · intro hg
        obtain ⟨hmem, hcond⟩ := List.mem_filter.mp hg
        exact ⟨hmem, by simpa using hcond⟩
      · rintro ⟨hmem, hcond⟩
        exact List.mem_filter.mpr ⟨hmem, by simpa using hcond⟩

/-- Witness for C3 at a concrete run of three files, two of them equal. -/
theorem claim_C3_witness :
    (∀ g ∈ (buildReport
        (sortPaths (scanFiles true false
          [("B", FSTree.dir "B" ["x.txt", "y.txt", "z.txt"] [])]))
        [(md5hex [104], "B/x.txt"), (md5hex [104], "B/y.txt"),
          (md5hex [119], "B/z.txt")]).report, 2 ≤ g.2.length) ∧
    (∀ k ps, (k, ps) ∈ (buildReport
        (sortPaths (scanFiles true false
          [("B", FSTree.dir "B" ["x.txt", "y.txt", "z.txt"] [])]))
        [(md5hex [104], "B/x.txt"), (md5hex [104], "B/y.txt"),
          (md5hex [119], "B/z.txt")]).report ↔
      ((k, ps) ∈ (buildReport
        (sortPaths (scanFiles true false
          [("B", FSTree.dir "B" ["x.txt", "y.txt", "z.txt"] [])]))
        [(md5hex [104], "B/x.txt"), (md5hex [104], "B/y.txt"),
          (md5hex [119], "B/z.txt")]).table ∧ 1 < ps.length)) :=
  claim_C3
    (fun p => if p = "B/z.txt" then some [119] else some [104]) 1 true false
    [("B", FSTree.dir "B" ["x.txt", "y.txt", "z.txt"] [])]
    (buildReport
      (sortPaths (scanFiles true false
        [("B", FSTree.dir "B" ["x.txt", "y.txt", "z.txt"] [])]))
      [(md5hex [104], "B/x.txt"), (md5hex [104], "B/y.txt"),
        (md5hex [119], "B/z.txt")])
    (by rfl)

/-- C4: for a fixed set of discovered paths with fixed contents, the whole
run after scanning — and in particular the grouping table — is identical for
any two enumeration orders of the discovered paths, because the paths are
sorted before hashing and the grouper consumes the (digest, path) pairs in
that sorted order. -/
theorem claim_C4 (fs : String → Option (List Nat)) (chunk_size : Nat)
    {l₁ l₂ : List String} (h : l₁.Perm l₂) :
    mainRunPaths fs chunk_size l₁ = mainRunPaths fs chunk_size l₂ := by
  unfold mainRunPaths
  rw [sortPaths_perm_eq h]

/-- Witness for C4 at two concrete enumeration orders of the same path
set. -/
theorem claim_C4_witness :
    mainRunPaths (fun _ => some []) 1 ["b", "a"] = mainRunPaths (fun _ => some []) 1 ["a", "b"] :=
  claim_C4 (fun _ => some []) 1 (List.Perm.swap "a" "b" [])

/-- C5: with `recursive = false` every returned path is the join of a
directory argument (the walk entry equal to the root itself) with one of its
direct file names — no file of a nested entry is collected — while with
`recursive = true` nested files are returned too; on the spec's example tree
`A ∋ x.txt, sub/y.txt` the non-recursive scan returns only `A/x.txt` and the
recursive scan returns both paths. -/
theorem claim_C5 :
    (∀ (includeHidden : Bool) (dirs : List (String × FSTree)) (p : String),
      p ∈ scanFiles false includeHidden dirs →
      ∃ dt ∈ dirs, ∃ e ∈ osWalk dt.1 dt.2, e.1 = dt.1 ∧
        ∃ f ∈ e.2, p = pathJoin dt.1 f) ∧
    scanFiles false false
        [("A", FSTree.dir "A" ["x.txt"] [FSTree.dir "sub" ["y.txt"] []])] = ["A/x.txt"] ∧
    scanFiles true false
        [("A", FSTree.dir "A" ["x.txt"] [FSTree.dir "sub" ["y.txt"] []])] =
      ["A/x.txt", "A/sub/y.txt"] := by
  refine ⟨?_, by decide, by decide⟩
  intro includeHidden dirs p hp
  obtain ⟨dt, hdt, e, he, f, hf, hpj, hroot, -, -⟩ :=
    (mem_scanFiles_iff false includeHidden dirs p).mp hp
  rcases hroot with hroot | hroot
  · cases hroot
  · exact ⟨dt, hdt, e, he, hroot.symm, f, hf, hroot ▸ hpj⟩

/-- C6: every path the scanner returns comes from a walk entry whose root
contains no ignore-list fragment (`node_modules`, `venv`, `__pycache__`) as
a substring; hence a file inside a directory whose path contains such a
fragment, at any depth, is never returned, for any combination of the
`recursive`/`includeHidden` flags. -/
theorem claim_C6 (recursive includeHidden : Bool) (dirs : List (String × FSTree))
    (p : String) (h : p ∈ scanFiles recursive includeHidden dirs) :
    ∃ dt ∈ dirs, ∃ e ∈ osWalk dt.1 dt.2, (∃ f ∈ e.2, p = pathJoin e.1 f) ∧
      ∀ ig ∈ IGNORE_LIST, strIn ig e.1 = false := by
  obtain ⟨dt, hdt, e, he, f, hf, hpj, -, -, hig⟩ :=
    (mem_scanFiles_iff recursive includeHidden dirs p).mp h
  refine ⟨dt, hdt, e, he, ⟨f, hf, hpj⟩, ?_⟩
  intro ig hmem
  have := List.any_eq_false.mp hig ig hmem
  simpa using this

/-- Witness for C6 at a concrete tree containing an ignored `venv`
directory. -/
theorem claim_C6_witness :
    ∃ dt ∈ [("A", FSTree.dir "A" ["plain"] [FSTree.dir "venv" ["v.txt"] []])],
      ∃ e ∈ osWalk dt.1 dt.2, (∃ f ∈ e.2, "A/plain" = pathJoin e.1 f) ∧
        ∀ ig ∈ IGNORE_LIST, strIn ig e.1 = false :=
  claim_C6 true true [("A", FSTree.dir "A" ["plain"] [FSTree.dir "venv" ["v.txt"] []])]
    "A/plain" (by decide)

/-- C7: with `includeHidden = false` every returned path comes from a file
whose base name does not start with a dot, and with `includeHidden = true` a
hidden file passes (subject only to the other filters: the non-recursive
break and the ignore list). -/
theorem claim_C7 :
    (∀ (recursive : Bool) (dirs : List (String × FSTree)) (p : String),
      p ∈ scanFiles recursive false dirs →
      ∃ dt ∈ dirs, ∃ e ∈ osWalk dt.1 dt.2, ∃ f ∈ e.2,
        p = pathJoin e.1 f ∧ startsDot f = false) ∧
    (∀ (recursive : Bool) (dirs : List (String × FSTree)) (dt : String × FSTree)
      (e : String × List String) (f : String),
      dt ∈ dirs → e ∈ osWalk dt.1 dt.2 → f ∈ e.2 →
      (recursive = true ∨ dt.1 = e.1) →
      (IGNORE_LIST.any fun ig => strIn ig e.1) = false →
      pathJoin e.1 f ∈ scanFiles recursive true dirs) := by
  constructor
  · intro recursive dirs p hp
    obtain ⟨dt, hdt, e, he, f, hf, hpj, -, hdot, -⟩ :=
      (mem_scanFiles_iff recursive false dirs p).mp hp
    rcases hdot with hdot | hdot
    · cases hdot
    · exact ⟨dt, hdt, e, he, f, hf, hpj, hdot⟩
  · intro recursive dirs dt e f hdt he hf hroot hig
    exact (mem_scanFiles_iff recursive true dirs _).mpr
      ⟨dt, hdt, e, he, f, hf, rfl, hroot, Or.inl rfl, hig⟩

/-- C8, as stated, is false: the scanner joins each walk root with the file
name and never makes the result absolute, so a relative directory argument
yields relative paths. Concretely, scanning the relative root `"A"` returns
`"A/x.txt"`, which is not absolute. -/
theorem claim_C8_counterexample :
    "A/x.txt" ∈ scanFiles true true [("A", FSTree.dir "A" ["x.txt"] [])] ∧
    isAbs "A/x.txt" = false := by
  exact ⟨by decide, by decide⟩

/-- C8 (amended): provided every root directory argument is an absolute
path, every path the scanner returns is absolute; and the returned list
never repeats a path string (the Python `set` deduplicates). -/
theorem claim_C8_amended (recursive includeHidden : Bool) (dirs : List (String × FSTree))
    (habs : ∀ dt ∈ dirs, isAbs dt.1 = true) :
    (∀ p ∈ scanFiles recursive includeHidden dirs, isAbs p = true) ∧
    (scanFiles recursive includeHidden dirs).Nodup := by
  refine ⟨?_, scanFiles_nodup recursive includeHidden dirs⟩
  intro p hp
  obtain ⟨dt, hdt, e, he, f, hf, hpj, -, -, -⟩ :=
    (mem_scanFiles_iff recursive includeHidden dirs p).mp hp
  have hroot : isAbs e.1 = true := osWalk_isAbs dt.2 dt.1 (habs dt hdt) e he
  rw [hpj]
  exact pathJoin_isAbs hroot f

/-- Witness for the amended C8 at a concrete absolute root. -/
theorem claim_C8_amended_witness :
    (∀ p ∈ scanFiles true true [("/A", FSTree.dir "A" ["x.txt"] [])], isAbs p = true) ∧
    (scanFiles true true [("/A", FSTree.dir "A" ["x.txt"] [])]).Nodup :=
  claim_C8_amended true true [("/A", FSTree.dir "A" ["x.txt"] [])] (by decide)

/-- C9: if some scanned file cannot be opened or read, the hashing loop
raises an uncaught I/O error naming a failing path and the whole run aborts
with that error — the run produces no grouping table, no unique/duplicate
counts and no duplicate report. -/
theorem claim_C9 (fs : String → Option (List Nat)) (chunk_size : Nat)
    (recursive includeHidden : Bool) (dirs : List (String × FSTree))
    (h : ∃ p ∈ scanFiles recursive includeHidden dirs, fs p = none) :
    ∃ p ∈ scanFiles recursive includeHidden dirs, fs p = none ∧
      mainRun fs chunk_size recursive includeHidden dirs = Except.error p := by
  obtain ⟨q, hq, hnone⟩ := h
  have hqs : q ∈ sortPaths (scanFiles recursive includeHidden dirs) :=
    ((List.perm_insertionSort pathLe _).mem_iff).mpr hq
  obtain ⟨p, hp, herr, hpnone⟩ :=
    @hashAll_error fs chunk_size _ ⟨q, hqs, hnone⟩
  refine ⟨p, ((List.perm_insertionSort pathLe _).mem_iff).mp hp, hpnone, ?_⟩
  unfold mainRun mainRunPaths
  rw [herr]

/-- Witness for C9 at a concrete run where no file can be read. -/
theorem claim_C9_witness :
    ∃ p ∈ scanFiles true false [("A", FSTree.dir "A" ["x.txt"] [])],
      (fun _ : String => (none : Option (List Nat))) p = none ∧
        mainRun (fun _ => none) 1 true false [("A", FSTree.dir "A" ["x.txt"] [])] =
          Except.error p :=
  claim_C9 (fun _ => none) 1 true false [("A", FSTree.dir "A" ["x.txt"] [])]
    ⟨"A/x.txt", by decide, rfl⟩

/-- C10: hidden-ness is tested only on the file's own base name: with
`includeHidden = false` and `recursive = true`, a file whose name does not
start with a dot is returned even when it lies in a walk entry whose
directory name starts with a dot, as long as that entry's root contains no
ignore-list fragment. -/
theorem claim_C10 (dirs : List (String × FSTree)) (dt : String × FSTree)
    (e : String × List String) (f : String)
    (hdt : dt ∈ dirs) (he : e ∈ osWalk dt.1 dt.2) (hf : f ∈ e.2)
    (hnotdot : startsDot f = false)
    (hig : (IGNORE_LIST.any fun ig => strIn ig e.1) = false) :
    pathJoin e.1 f ∈ scanFiles true false dirs :=
  (mem_scanFiles_iff true false dirs _).mpr
    ⟨dt, hdt, e, he, f, hf, rfl, Or.inl rfl, Or.inr hnotdot, hig⟩

/-- Witness for C10: a non-hidden file inside the hidden directory
`A/.hidden` is returned by the default-flags recursive scan. -/
theorem claim_C10_witness :
    pathJoin "A/.hidden" "config" ∈
      scanFiles true false [("A", FSTree.dir "A" [] [FSTree.dir ".hidden" ["config"] []])] :=
  claim_C10 [("A", FSTree.dir "A" [] [FSTree.dir ".hidden" ["config"] []])]
    ("A", FSTree.dir "A" [] [FSTree.dir ".hidden" ["config"] []])
    ("A/.hidden", ["config"]) "config" (List.mem_singleton.mpr rfl) (by decide) (by decide)
    (by decide) (by decide)

end DupFiles
